import Mathlib

/-! Shallow embedding of the pattern-scan-and-patch engine of
`clip_patcher_gui.py` (the functions `find_wildcard_matches`,
`find_exact_matches` and `patch_file`), together with proofs about it.

Conventions of the embedding:
* Python `bytes` values and Python `str` values are both represented as
  `List Nat` (byte values, respectively Unicode code points); `chr`/`ord`
  are then the identity.
* `str.encode("ascii", errors="ignore")` and
  `bytes.decode("ascii", errors="ignore")` keep exactly the code points
  below 128, hence both are `asciiEncode`.
* Python string case folding (`str.lower` / `str.upper`) is modelled on the
  ASCII range, where it agrees with Python; the multi-character Unicode
  foldings of exotic code points are not modelled, and every theorem below
  that involves case folding restricts itself to ASCII input.
* Fallible operations (`mmap` slice assignment, `ValueError`,
  `ZeroDivisionError`) are modelled with `Except`; an error value carries
  the buffer as it stood when the exception was raised, since `mmap` writes
  performed before the exception persist.
* `fnmatch.translate` compiles a pattern to the regex `(?s:T)\Z` where `T`
  translates `*` to `.*`, `?` to `.`, a bracketed set `[seq]` / `[!seq]` to
  a regex character class, and escapes every other character; `re.match`
  anchors at the start, and the trailing `\Z` anchors at the end, so the
  compiled matcher accepts exactly the glob language of the pattern,
  matched against the WHOLE subject string.  `translate` always emits a
  syntactically valid regex, so the `except re.error` branch of
  `find_wildcard_matches` is unreachable; the embedding therefore
  implements the glob semantics directly (`parseGlob` / `toksMatch`).
-/

/-- Printable-ASCII test used by the run extractor: `32 <= byte <= 126`. -/
def isPrintB (b : Nat) : Bool := decide (32 ≤ b ∧ b ≤ 126)

/-- Model of `str.encode("ascii", errors="ignore")` and of
`bytes.decode("ascii", errors="ignore")`: keep the code points below 128. -/
def asciiEncode (s : List Nat) : List Nat := s.filter (fun c => decide (c < 128))

/-- ASCII case folding to lower case, as `str.lower` acts on ASCII. -/
def toLowerCh (c : Nat) : Nat := if 65 ≤ c ∧ c ≤ 90 then c + 32 else c

/-- ASCII case folding to upper case, as `str.upper` acts on ASCII. -/
def toUpperCh (c : Nat) : Nat := if 97 ≤ c ∧ c ≤ 122 then c - 32 else c

/-- Model of `pattern.lower()` on ASCII code points. -/
def lowerStr (s : List Nat) : List Nat := s.map toLowerCh

/-- Model of `pattern.upper()` on ASCII code points. -/
def upperStr (s : List Nat) : List Nat := s.map toUpperCh

/-- Literal-character comparison of the compiled matcher; under
`re.IGNORECASE` the two characters are compared case folded. -/
def litEq (f : Bool) (a b : Nat) : Bool :=
  if f then toLowerCh a == toLowerCh b else a == b

/-- Bracket scan of `fnmatch.translate`: after a `[`, skip an optional
leading `!`, then an optional leading `]`, then look for the closing `]`.
Returns the set body (including the leading `!` when present) and the
pattern remainder after the `]`, or `none` when no closing `]` exists (in
which case `translate` escapes the `[` as a literal). -/
def splitBracket (rest : List Nat) : Option (List Nat × List Nat) :=
  let k1 : Nat := if rest.head? = some 33 then 1 else 0
  let k2 : Nat := if (rest.drop k1).head? = some 93 then 1 else 0
  match (rest.drop (k1 + k2)).findIdx? (fun c => c == 93) with
  | none => none
  | some j => some (rest.take (k1 + k2 + j), rest.drop (k1 + k2 + j + 1))

/-- Range test of a regex character class; under `re.IGNORECASE` a
character is also accepted when one of its case variants lies in the
range. -/
def inRangeCI (f : Bool) (a b c : Nat) : Bool :=
  (decide (a ≤ c) && decide (c ≤ b)) ||
    (f && ((decide (a ≤ toLowerCh c) && decide (toLowerCh c ≤ b)) ||
           (decide (a ≤ toUpperCh c) && decide (toUpperCh c ≤ b))))

/-- Membership of a character in the body of a regex character class:
`x-y` between two characters is a range, everything else is literal. -/
def classMem (f : Bool) (c : Nat) : List Nat → Bool
  | c1 :: 45 :: c2 :: rest => inRangeCI f c1 c2 c || classMem f c rest
  | c1 :: rest => litEq f c1 c || classMem f c rest
  | [] => false

/-- Test of one character against a bracketed set body; a leading `!`
negates the set (`translate` turns it into `^`). -/
def classTest (f : Bool) (stuff : List Nat) (c : Nat) : Bool :=
  match stuff with
  | 33 :: body => !(classMem f c body)
  | body => classMem f c body

/-- Tokens of a compiled wildcard pattern. -/
inductive GlobTok : Type where
  | star : GlobTok
  | anyc : GlobTok
  | lit : Nat → GlobTok
  | cls : Bool → List Nat → GlobTok
deriving DecidableEq

/-- Tokenizer mirroring the translation loop of `fnmatch.translate`.
The fuel argument only serves structural recursion; every step consumes at
least one pattern character, so `pattern.length` fuel always suffices. -/
def parseGlobF : Nat → List Nat → List GlobTok
  | 0, _ => []
  | _ + 1, [] => []
  | fuel + 1, p :: ps =>
    if p = 42 then GlobTok.star :: parseGlobF fuel ps
    else if p = 63 then GlobTok.anyc :: parseGlobF fuel ps
    else if p = 91 then
      match splitBracket ps with
      | none => GlobTok.lit 91 :: parseGlobF fuel ps
      | some (stuff, after) =>
        (match stuff with
         | 33 :: body => GlobTok.cls true body
         | body => GlobTok.cls false body) :: parseGlobF fuel after
    else GlobTok.lit p :: parseGlobF fuel ps

/-- Tokenized form of a wildcard pattern. -/
def parseGlob (p : List Nat) : List GlobTok := parseGlobF p.length p

/-- Matcher for a tokenized pattern against a whole string, exactly the
language of the regex `(?s:T)\Z` produced by `fnmatch.translate`: `star`
may absorb any (possibly empty) suffix, `anyc` one character, and the
string must be exhausted when the tokens are. -/
def toksMatch (f : Bool) : List GlobTok → List Nat → Bool
  | [], s => s.isEmpty
  | GlobTok.star :: ts, s => s.tails.any (fun s2 => toksMatch f ts s2)
  | GlobTok.anyc :: ts, s =>
    match s with
    | [] => false
    | _ :: s2 => toksMatch f ts s2
  | GlobTok.lit c :: ts, s =>
    match s with
    | [] => false
    | c2 :: s2 => litEq f c c2 && toksMatch f ts s2
  | GlobTok.cls neg body :: ts, s =>
    match s with
    | [] => false
    | c2 :: s2 =>
      (if neg then !(classMem f c2 body) else classMem f c2 body) &&
        toksMatch f ts s2

/-- Model of `re.compile(fnmatch.translate(pattern), flags).match(text)`
viewed as a Boolean: does the whole `text` lie in the glob language of
`pattern` (case folded under `re.IGNORECASE`)? -/
def globMatchB (pattern text : List Nat) (ci : Bool) : Bool :=
  toksMatch ci (parseGlob pattern) text

/-- Modelled from the spec: the wildcard semantics the specification
describes for claim C4, in which ONLY `*` and `?` are metacharacters and
every other pattern character (brackets included) is matched literally.
Used solely to compare the specified semantics with the implemented
`globMatchB`. -/
def litToks : List Nat → List GlobTok
  | [] => []
  | 42 :: ps => GlobTok.star :: litToks ps
  | 63 :: ps => GlobTok.anyc :: litToks ps
  | p :: ps => GlobTok.lit p :: litToks ps

/-- Modelled from the spec: whole-string wildcard match in which only `*`
and `?` are special (see `litToks`). -/
def literalGlobMatchB (pattern text : List Nat) (ci : Bool) : Bool :=
  toksMatch ci (litToks pattern) text

/-- State-passing transcription of the run-extraction loop inside
`find_wildcard_matches` (lines 53-68): `none` models the empty
`current_string`, `some (s, cur)` a run under construction that started at
offset `s`. -/
def extractRunsAux : List Nat → Nat → Option (Nat × List Nat) → List (Nat × List Nat)
  | [], _, none => []
  | [], _, some r => [r]
  | b :: rest, i, none =>
    if isPrintB b then extractRunsAux rest (i + 1) (some (i, [b]))
    else extractRunsAux rest (i + 1) none
  | b :: rest, i, some (s, cur) =>
    if isPrintB b then extractRunsAux rest (i + 1) (some (s, cur ++ [b]))
    else (s, cur) :: extractRunsAux rest (i + 1) none

/-- All maximal printable-ASCII runs of a buffer with their start offsets,
as the loop of `find_wildcard_matches` collects them. -/
def extractRuns (data : List Nat) : List (Nat × List Nat) :=
  extractRunsAux data 0 none

/-- A match triple `(offset, matched_text, matched_bytes)`. -/
abbrev Match3 : Type := Nat × List Nat × List Nat

/-- A match triple extended with its originating pattern, as built in
`patch_file`. -/
abbrev Match4 : Type := Nat × List Nat × List Nat × List Nat

/-- Model of `find_wildcard_matches`: extract the printable runs, keep the
runs whose whole text the compiled pattern accepts, and record
`(start, text, text.encode("ascii"))` for each.  Run text is printable
ASCII, so the strict `encode("ascii")` of the source never fails and
equals `asciiEncode`. -/
def find_wildcard_matches (data : List Nat) (pattern : List Nat) (ci : Bool) :
    List Match3 :=
  (extractRuns data).filterMap (fun r =>
    if globMatchB pattern r.2 ci then some (r.1, r.2, asciiEncode r.2) else none)

/-- Does `sub` occur in `data` at index `i` (in Python slice semantics,
`data[i : i + len(sub)] == sub`)? -/
def occursAtB (data sub : List Nat) (i : Nat) : Bool :=
  decide ((data.drop i).take sub.length = sub)

/-- All indices `i ≥ start` (up to `data.length`) at which `sub` occurs in
`data`, in increasing order. -/
def occList (data sub : List Nat) (start : Nat) : List Nat :=
  (List.range (data.length + 1)).filter
    (fun i => decide (start ≤ i) && occursAtB data sub i)

/-- Model of `data.find(sub, start)`: the least index `i ≥ start` with an
occurrence of `sub` at `i` (an empty `sub` occurs at every index up to
`data.length`), or `none`. -/
def pyFind (data sub : List Nat) (start : Nat) : Option Nat :=
  (occList data sub start).head?

/-- Transcription of the `while True: idx = data.find(...)` loops of
`find_exact_matches`, collecting the hit offsets and advancing the search
start by 1 after each hit.  The fuel argument only serves structural
recursion; the start grows strictly and is bounded by `data.length`, so
`data.length + 1` fuel always suffices. -/
def findAllFrom (data sub : List Nat) : Nat → Nat → List Nat
  | 0, _ => []
  | fuel + 1, start =>
    match pyFind data sub start with
    | none => []
    | some idx => idx :: findAllFrom data sub fuel (idx + 1)

/-- Model of `find_exact_matches`.  In the case-insensitive branch the
source iterates over `set(candidates)`, whose iteration order Python
leaves unspecified; the embedding uses `List.dedup`, which searches each
distinct candidate byte string exactly once like the source does.  The
loops append `(idx, matched_str, candidate)`; the last two components are
loop invariants, so they are factored out of the recursion. -/
def find_exact_matches (data p : List Nat) (ci : Bool) : List Match3 :=
  let pb := asciiEncode p
  if ci then
    let cands := List.dedup [pb, asciiEncode (lowerStr p), asciiEncode (upperStr p)]
    (cands.map (fun c =>
      (findAllFrom data c (data.length + 1) 0).map (fun i => (i, asciiEncode c, c)))).flatten
  else
    (findAllFrom data pb (data.length + 1) 0).map (fun i => (i, p, pb))

/-- Wildcard-versus-literal dispatch of `patch_file`:
`"*" in pattern or "?" in pattern`. -/
def isWildcardPat (p : List Nat) : Bool := p.contains 42 || p.contains 63

/-- The per-pattern match list `patch_file` computes before patching. -/
def findMatchesFor (data p : List Nat) (ci : Bool) : List Match3 :=
  if isWildcardPat p then find_wildcard_matches data p ci
  else find_exact_matches data p ci

/-- All patterns' matches, flattened in pattern order and tagged with
their originating pattern, as `all_matches` in `patch_file`. -/
def gatherMatches (data : List Nat) (patterns : List (List Nat)) (ci : Bool) :
    List Match4 :=
  (patterns.map (fun p =>
    (findMatchesFor data p ci).map (fun m => (m.1, m.2.1, m.2.2, p)))).flatten

/-- Stable insertion of a match into a list sorted by descending offset. -/
def insertDesc (m : Match4) : List Match4 → List Match4
  | [] => [m]
  | y :: ys => if y.1 ≤ m.1 then m :: y :: ys else y :: insertDesc m ys

/-- Model of `all_matches.sort(key=lambda x: x[0], reverse=True)`: a
stable sort by descending offset. -/
def sortDesc : List Match4 → List Match4
  | [] => []
  | x :: xs => insertDesc x (sortDesc xs)

/-- Python error message of `ZeroDivisionError`. -/
def zeroDivMsg : String := "integer division or modulo by zero"

/-- Python error message of the `ValueError` raised for an unknown mode. -/
def unknownModeMsg (mode : String) : String := "Unknown mode: " ++ mode

/-- Python error message of a size-mismatched `mmap` slice assignment. -/
def sliceSizeMsg : String := "mmap slice assignment is wrong size"

/-- Replacement construction of the placeholder branch of `patch_file`
(lines 148-154): repeat the placeholder `len(matched_bytes) // len(ph) + 1`
times, truncate the string to the matched length, ASCII-encode dropping
non-ASCII code points, zero-pad when the encoding fell short, truncate
again.  Python raises `ZeroDivisionError` on an empty placeholder at the
division; the guard makes that explicit. -/
def placeholderRepl (ph : List Nat) (L : Nat) : Except String (List Nat) :=
  if ph.length = 0 then Except.error zeroDivMsg
  else
    let phs := (List.flatten (List.replicate (L / ph.length + 1) ph)).take L
    let r1 := asciiEncode phs
    let r2 := if r1.length < L then r1 ++ List.replicate (L - r1.length) 0 else r1
    Except.ok (r2.take L)

/-- Replacement bytes for one match: the `if mode == ... elif ... else
raise ValueError` chain of `patch_file`. -/
def computeRepl (mode : String) (ph : List Nat) (L : Nat) : Except String (List Nat) :=
  if mode = "null" then Except.ok (List.replicate L 0)
  else if mode = "placeholder" then placeholderRepl ph L
  else Except.error (unknownModeMsg mode)

/-- Model of `mm[start : start + len(matched_bytes)] = repl`: Python
clamps slice bounds to the buffer length and requires the replacement to
have exactly the length of the clamped slice, else the assignment
raises. -/
def writeRange (buf : List Nat) (start : Nat) (repl : List Nat) :
    Except String (List Nat) :=
  if min (start + repl.length) buf.length - min start buf.length = repl.length then
    Except.ok (buf.take start ++ repl ++ buf.drop (start + repl.length))
  else Except.error sliceSizeMsg

/-- Log entries are modelled as `(matched_str, original_pattern, offset)`
tuples; the source only interpolates these three values into a display
string. -/
abbrev LogEntry : Type := List Nat × List Nat × Nat

/-- The patching loop of `patch_file` (lines 144-163): for each match in
order compute the replacement bytes, write them over the matched range,
count and log.  An exception aborts the loop; the error carries the buffer
as already mutated (for the first match, still the original buffer). -/
def applyLoop (buf : List Nat) (ms : List Match4) (mode : String) (ph : List Nat) :
    Except (String × List Nat) (List Nat × Nat × List LogEntry) :=
  match ms with
  | [] => Except.ok (buf, 0, [])
  | (idx, mstr, mbytes, pat) :: rest =>
    match computeRepl mode ph mbytes.length with
    | Except.error e => Except.error (e, buf)
    | Except.ok repl =>
      match writeRange buf idx repl with
      | Except.error e => Except.error (e, buf)
      | Except.ok buf2 =>
        match applyLoop buf2 rest mode ph with
        | Except.error e => Except.error e
        | Except.ok (out, n, logs) => Except.ok (out, n + 1, (mstr, pat, idx) :: logs)

/-- Model of the buffer pipeline of `patch_file`: gather every pattern's
matches, sort by descending offset, then run the patching loop.  File I/O
(read, `mmap` flush, backup copy) is abstracted away: the input buffer
stands for the file contents read, the returned buffer for the contents
written back.  When the match list is empty the source never creates the
`mmap` and never inspects `mode`, which the model reproduces because the
loop body is never entered. -/
def patch_file (data : List Nat) (patterns : List (List Nat)) (mode : String)
    (ph : List Nat) (ci : Bool) :
    Except (String × List Nat) (List Nat × Nat × List LogEntry) :=
  applyLoop data (sortDesc (gatherMatches data patterns ci)) mode ph

/-- Reference presentation of the run list used by the proofs: skip
non-printable bytes, emit the maximal printable prefix as one run, repeat
after it.  `extractRuns_eq` identifies it with `extractRuns`. -/
def runsSpec : List Nat → Nat → List (Nat × List Nat)
  | [], _ => []
  | b :: rest, i =>
    if isPrintB b then
      (i, b :: rest.takeWhile isPrintB) ::
        runsSpec (rest.dropWhile isPrintB) (i + 1 + (rest.takeWhile isPrintB).length)
    else runsSpec rest (i + 1)
termination_by l _ => l.length
decreasing_by
  · exact Nat.lt_succ_of_le (List.dropWhile_sublist _).length_le
  · exact Nat.lt_succ_self _

/-- Printability of the byte at one index (`false` out of bounds). -/
def printAt (data : List Nat) (j : Nat) : Bool :=
  match data[j]? with
  | some b => isPrintB b
  | none => false

/-- Is index `j` covered by the byte range `[offset, offset +
matched_bytes.length)` of some match in `ms`? -/
def inRanges (ms : List Match4) (j : Nat) : Prop :=
  ∃ m ∈ ms, m.1 ≤ j ∧ j < m.1 + m.2.2.1.length

/-- Characterization of a maximal printable run of `data` starting at
absolute offset `s`: the text is the (nonempty) maximal printable stretch
from `s`, and `s` is either the buffer start or preceded by a
non-printable byte. -/
def IsRun (data : List Nat) (s : Nat) (t : List Nat) : Prop :=
  t ≠ [] ∧ t = (data.drop s).takeWhile isPrintB ∧ (s = 0 ∨ printAt data (s - 1) = false)

/-! ### Basic facts about the byte-level helpers -/

theorem isPrintB_lt_128 {c : Nat} (h : isPrintB c = true) : c < 128 := by
  simp only [isPrintB, decide_eq_true_eq] at h
  omega

theorem isPrintB_ne_zero {c : Nat} (h : isPrintB c = true) : c ≠ 0 := by
  simp only [isPrintB, decide_eq_true_eq] at h
  omega

theorem asciiEncode_of_print {t : List Nat} (h : ∀ c ∈ t, isPrintB c = true) :
    asciiEncode t = t := by
  unfold asciiEncode
  rw [List.filter_eq_self]
  intro c hc
  exact decide_eq_true (isPrintB_lt_128 (h c hc))

theorem toLowerCh_print {c : Nat} (h : isPrintB c = true) :
    isPrintB (toLowerCh c) = true := by
  simp only [isPrintB, decide_eq_true_eq] at h ⊢
  unfold toLowerCh
  split <;> omega

theorem toUpperCh_print {c : Nat} (h : isPrintB c = true) :
    isPrintB (toUpperCh c) = true := by
  simp only [isPrintB, decide_eq_true_eq] at h ⊢
  unfold toUpperCh
  split <;> omega

/-! ### The sort used by `patch_file` is a permutation -/

theorem insertDesc_perm (m : Match4) (l : List Match4) :
    (insertDesc m l).Perm (m :: l) := by
  induction l with
  | nil => exact List.Perm.refl _
  | cons y ys ih =>
    unfold insertDesc
    split
    · exact List.Perm.refl _
    · exact (List.Perm.cons y ih).trans (List.Perm.swap m y ys)

theorem sortDesc_perm (l : List Match4) : (sortDesc l).Perm l := by
  induction l with
  | nil => exact List.Perm.refl _
  | cons x xs ih =>
    exact (insertDesc_perm x (sortDesc xs)).trans (List.Perm.cons x ih)

theorem mem_sortDesc {m : Match4} {l : List Match4} :
    m ∈ sortDesc l ↔ m ∈ l :=
  (sortDesc_perm l).mem_iff

theorem sortDesc_eq_nil_iff {l : List Match4} : sortDesc l = [] ↔ l = [] := by
  constructor
  · intro h
    exact ((h ▸ sortDesc_perm l).symm).eq_nil
  · intro h
    subst h
    rfl

/-! ### Replacement construction: length and error behaviour -/

theorem placeholderRepl_ok_length {ph : List Nat} {L : Nat} {r : List Nat}
    (h : placeholderRepl ph L = Except.ok r) : r.length = L := by
  unfold placeholderRepl at h
  by_cases hz : ph.length = 0
  · simp [hz] at h
  · simp only [hz, if_false] at h
    set r1 := asciiEncode ((List.flatten (List.replicate (L / ph.length + 1) ph)).take L) with hr1
    by_cases hlt : r1.length < L
    · simp only [← hr1, hlt, if_true] at h
      have : r = (r1 ++ List.replicate (L - r1.length) 0).take L := by
        exact (Except.ok.injEq _ _).mp h.symm |>.symm ▸ rfl
      subst this
      simp [List.length_take, List.length_append, List.length_replicate]
      omega
    · simp only [← hr1, hlt, if_false] at h
      have : r = r1.take L := by
        exact (Except.ok.injEq _ _).mp h.symm |>.symm ▸ rfl
      subst this
      simp [List.length_take]
      omega

theorem placeholderRepl_err {L : Nat} :
    placeholderRepl [] L = Except.error zeroDivMsg := rfl

theorem computeRepl_ok_length {mode : String} {ph : List Nat} {L : Nat} {r : List Nat}
    (h : computeRepl mode ph L = Except.ok r) : r.length = L := by
  unfold computeRepl at h
  by_cases h1 : mode = "null"
  · simp only [h1, if_true] at h
    cases h
    exact List.length_replicate _ _
  · simp only [h1, if_false] at h
    by_cases h2 : mode = "placeholder"
    · simp only [h2, if_true] at h
      exact placeholderRepl_ok_length h
    · simp [h2] at h

/-! ### `mmap` slice assignment: success condition and pointwise effect -/

theorem writeRange_eq_ok {buf : List Nat} {s : Nat} {repl : List Nat} {out : List Nat} :
    writeRange buf s repl = Except.ok out ↔
      ((repl.length = 0 ∨ s + repl.length ≤ buf.length) ∧
        out = buf.take s ++ repl ++ buf.drop (s + repl.length)) := by
  unfold writeRange
  constructor
  · intro h
    split at h
    · rename_i hcond
      cases h
      refine ⟨?_, rfl⟩
      rcases le_or_lt (s + repl.length) buf.length with hle | hgt
      · exact Or.inr hle
      · left
        rcases le_or_lt buf.length s with hs | hs
        · rw [Nat.min_eq_right (le_trans hs (Nat.le_add_right _ _)),
              Nat.min_eq_right hs, Nat.sub_self] at hcond
          omega
        · rw [Nat.min_eq_right (Nat.le_of_lt hgt), Nat.min_eq_left (Nat.le_of_lt hs)] at hcond
          omega
    · cases h
  · rintro ⟨hc, rfl⟩
    have : min (s + repl.length) buf.length - min s buf.length = repl.length := by
      rcases hc with h0 | hle
      · rw [h0]; omega
      · rw [Nat.min_eq_left hle, Nat.min_eq_left (le_trans (Nat.le_add_right _ _) hle)]
        omega
    rw [if_pos this]

theorem writeRange_ok_length {buf : List Nat} {s : Nat} {repl out : List Nat}
    (h : writeRange buf s repl = Except.ok out) : out.length = buf.length := by
  obtain ⟨hc, rfl⟩ := writeRange_eq_ok.mp h
  rcases hc with h0 | hle
  · rw [List.eq_nil_of_length_eq_zero h0]
    simp
  · simp only [List.length_append, List.length_take, List.length_drop]
    omega

theorem writeRange_getElem_out {buf : List Nat} {s : Nat} {repl out : List Nat}
    (h : writeRange buf s repl = Except.ok out) (j : Nat)
    (hj : j < s ∨ s + repl.length ≤ j) : out[j]? = buf[j]? := by
  obtain ⟨hc, rfl⟩ := writeRange_eq_ok.mp h
  rcases hc with h0 | hle
  · rw [List.eq_nil_of_length_eq_zero h0]
    simp [List.take_append_drop]
  · have hs : s ≤ buf.length := le_trans (Nat.le_add_right _ _) hle
    have hts : (buf.take s).length = s := by simp [List.length_take]; omega
    rcases hj with hj | hj
    · rw [List.append_assoc, List.getElem?_append, hts, if_pos hj, List.getElem?_take,
        if_pos hj]
    · rw [List.getElem?_append]
      have hlen2 : ((buf.take s ++ repl)).length = s + repl.length := by
        simp [List.length_append, hts]
      rw [hlen2, if_neg (by omega), List.getElem?_drop]
      congr 1
      omega

theorem writeRange_getElem_in {buf : List Nat} {s : Nat} {repl out : List Nat}
    (h : writeRange buf s repl = Except.ok out) (j : Nat)
    (h1 : s ≤ j) (h2 : j < s + repl.length) : out[j]? = repl[j - s]? := by
  obtain ⟨hc, rfl⟩ := writeRange_eq_ok.mp h
  rcases hc with h0 | hle
  · omega
  · have hs : s ≤ buf.length := le_trans (Nat.le_add_right _ _) hle
    have hts : (buf.take s).length = s := by simp [List.length_take]; omega
    rw [List.append_assoc, List.getElem?_append, hts, if_neg (by omega),
      List.getElem?_append, if_pos (by omega)]

/-! ### Frame property of the patching loop (claim C1) -/

theorem applyLoop_frame {mode : String} {ph : List Nat} :
    ∀ (ms : List Match4) (buf out : List Nat) (n : Nat) (logs : List LogEntry),
      applyLoop buf ms mode ph = Except.ok (out, n, logs) →
      out.length = buf.length ∧
        ∀ j, ¬ inRanges ms j → out[j]? = buf[j]? := by
  intro ms
  induction ms with
  | nil =>
    intro buf out n logs h
    cases h
    exact ⟨rfl, fun _ _ => rfl⟩
  | cons m rest ih =>
    intro buf out n logs h
    obtain ⟨idx, mstr, mbytes, pat⟩ := m
    cases hrepl : computeRepl mode ph mbytes.length with
    | error e => simp [applyLoop, hrepl] at h
    | ok repl =>
      cases hw : writeRange buf idx repl with
      | error e => simp [applyLoop, hrepl, hw] at h
      | ok buf2 =>
        cases hrec : applyLoop buf2 rest mode ph with
        | error e => simp [applyLoop, hrepl, hw, hrec] at h
        | ok res =>
          obtain ⟨out2, n2, logs2⟩ := res
          simp only [applyLoop, hrepl, hw, hrec, Except.ok.injEq, Prod.mk.injEq] at h
          obtain ⟨hout, hn, hlogs⟩ := h
          subst hout
          subst hn
          subst hlogs
          obtain ⟨ihlen, ihframe⟩ := ih buf2 out2 n2 logs2 hrec
          have hreplen : repl.length = mbytes.length := computeRepl_ok_length hrepl
          constructor
          · rw [ihlen, writeRange_ok_length hw]
          · intro j hj
            have hhead : ¬ (idx ≤ j ∧ j < idx + mbytes.length) := by
              intro hcon
              exact hj ⟨(idx, mstr, mbytes, pat), List.mem_cons_self _ _, hcon⟩
            have htail : ¬ inRanges rest j := by
              intro ⟨m2, hm2, hcon⟩
              exact hj ⟨m2, List.mem_cons_of_mem _ hm2, hcon⟩
            rw [ihframe j htail]
            exact writeRange_getElem_out hw j (by rw [hreplen]; omega)

/-- Claim C1: for every buffer, every match set and every recognized
replacement mode, a successful run of the patching loop of `patch_file`
returns a buffer of unchanged length in which every byte outside the
matched ranges `[offset, offset + matched_bytes.length)` keeps its
original value — only the matched ranges are overwritten. -/
theorem c1_patch_frame (buf : List Nat) (ms : List Match4) (mode : String)
    (ph : List Nat) (out : List Nat) (n : Nat) (logs : List LogEntry)
    (_hmode : mode = "null" ∨ mode = "placeholder")
    (h : applyLoop buf ms mode ph = Except.ok (out, n, logs)) :
    out.length = buf.length ∧ ∀ j, ¬ inRanges ms j → out[j]? = buf[j]? :=
  applyLoop_frame ms buf out n logs h

/-- Witness for C1: a concrete one-match NullFill application, checked at
the untouched index 1 and on the length. -/
theorem c1_patch_frame_witness :
    ([0, 66, 67] : List Nat).length = ([65, 66, 67] : List Nat).length ∧
      ∀ j, ¬ inRanges [(0, [65], [65], [65])] j →
        ([0, 66, 67] : List Nat)[j]? = ([65, 66, 67] : List Nat)[j]? :=
  c1_patch_frame [65, 66, 67] [(0, [65], [65], [65])] "null" [] [0, 66, 67] 1
    [([65], [65], 0)] (Or.inl rfl) (by rfl)

/-! ### Characterization of the `bytes.find` search loops -/

theorem mem_occList {data sub : List Nat} {start i : Nat} :
    i ∈ occList data sub start ↔
      i < data.length + 1 ∧ start ≤ i ∧ occursAtB data sub i = true := by
  unfold occList
  rw [List.mem_filter, List.mem_range, Bool.and_eq_true, decide_eq_true_eq]

theorem occList_pairwise (data sub : List Nat) (start : Nat) :
    (occList data sub start).Pairwise (· < ·) :=
  List.Pairwise.filter _ (List.pairwise_lt_range _)

theorem occList_nodup (data sub : List Nat) (start : Nat) :
    (occList data sub start).Nodup :=
  (occList_pairwise data sub start).imp Nat.ne_of_lt

theorem occList_head_cons {data sub : List Nat} {start idx : Nat}
    (h : (occList data sub start).head? = some idx) :
    occList data sub start = idx :: occList data sub (idx + 1) := by
  cases hh : occList data sub start with
  | nil => rw [hh] at h; cases h
  | cons a t =>
    rw [hh] at h
    have ha : a = idx := by
      simp only [List.head?_cons, Option.some.injEq] at h
      exact h
    subst ha
    have hpw : (a :: t).Pairwise (· < ·) := hh ▸ occList_pairwise data sub start
    have hlt : ∀ y ∈ t, a < y := (List.pairwise_cons.mp hpw).1
    have htp : t.Pairwise (· < ·) := (List.pairwise_cons.mp hpw).2
    have hmem_a : a ∈ occList data sub start := by
      rw [hh]; exact List.mem_cons_self _ _
    rw [mem_occList] at hmem_a
    congr 1
    have htnd : t.Nodup := htp.imp Nat.ne_of_lt
    have hperm : t.Perm (occList data sub (a + 1)) := by
      rw [List.perm_ext_iff_of_nodup htnd (occList_nodup data sub (a + 1))]
      intro y
      constructor
      · intro hy
        have : y ∈ occList data sub start := by
          rw [hh]; exact List.mem_cons_of_mem _ hy
        rw [mem_occList] at this
        rw [mem_occList]
        exact ⟨this.1, hlt y hy, this.2.2⟩
      · intro hy
        rw [mem_occList] at hy
        have : y ∈ occList data sub start := by
          rw [mem_occList]
          exact ⟨hy.1, by omega, hy.2.2⟩
        rw [hh] at this
        rcases List.mem_cons.mp this with h1 | h1
        · omega
        · exact h1
    haveI : IsAntisymm Nat (· < ·) :=
      ⟨fun a b h1 h2 => absurd (lt_trans h1 h2) (lt_irrefl a)⟩
    exact List.eq_of_perm_of_sorted hperm htp
      ((occList_pairwise data sub (a + 1)))

theorem findAllFrom_eq (data sub : List Nat) :
    ∀ (fuel start : Nat), data.length + 1 ≤ fuel + start →
      findAllFrom data sub fuel start = occList data sub start := by
  intro fuel
  induction fuel with
  | zero =>
    intro start h
    have hempty : occList data sub start = [] := by
      cases hh : occList data sub start with
      | nil => rfl
      | cons a t =>
        have ha : a ∈ occList data sub start := by
          rw [hh]; exact List.mem_cons_self _ _
        rw [mem_occList] at ha
        omega
    rw [hempty]
    rfl
  | succ fuel ih =>
    intro start h
    show (match pyFind data sub start with
      | none => []
      | some idx => idx :: findAllFrom data sub fuel (idx + 1)) = occList data sub start
    cases hf : pyFind data sub start with
    | none =>
      unfold pyFind at hf
      rw [List.head?_eq_none_iff] at hf
      show ([] : List Nat) = occList data sub start
      rw [hf]
    | some idx =>
      show idx :: findAllFrom data sub fuel (idx + 1) = occList data sub start
      have hcons := occList_head_cons hf
      have hidx : idx ∈ occList data sub start := by
        rw [hcons]; exact List.mem_cons_self _ _
      rw [mem_occList] at hidx
      rw [hcons, ih (idx + 1) (by omega)]

theorem find_exact_false_eq (data p : List Nat) :
    find_exact_matches data p false =
      (occList data (asciiEncode p) 0).map (fun i => (i, p, asciiEncode p)) := by
  unfold find_exact_matches
  rw [if_neg (by simp), findAllFrom_eq data (asciiEncode p) (data.length + 1) 0 (by omega)]

theorem find_exact_true_eq (data p : List Nat) :
    find_exact_matches data p true =
      ((List.dedup [asciiEncode p, asciiEncode (lowerStr p), asciiEncode (upperStr p)]).map
        (fun c => (occList data c 0).map (fun i => (i, asciiEncode c, c)))).flatten := by
  unfold find_exact_matches
  rw [if_pos rfl]
  refine congrArg List.flatten (List.map_congr_left ?_)
  intro c _
  rw [findAllFrom_eq data c (data.length + 1) 0 (by omega)]

theorem occursAtB_iff {data u : List Nat} {i : Nat} :
    occursAtB data u i = true ↔
      ∀ k (h : k < u.length), data[i + k]? = some (u[k]) := by
  unfold occursAtB
  rw [decide_eq_true_eq]
  constructor
  · intro h k hk
    have hck : u[k]? = ((data.drop i).take u.length)[k]? := by rw [h]
    rw [List.getElem?_take, if_pos hk, List.getElem?_drop] at hck
    rw [← hck, List.getElem?_eq_getElem hk]
  · intro h
    apply List.ext_getElem?
    intro n
    rw [List.getElem?_take]
    by_cases hn : n < u.length
    · rw [if_pos hn, List.getElem?_drop, h n hn, List.getElem?_eq_getElem hn]
    · rw [if_neg hn, eq_comm]
      exact List.getElem?_eq_none (by omega)

/-- Claim C6: case-sensitive literal search scans the raw buffer and finds
every occurrence of the pattern's ASCII-encoded bytes, overlapping ones
included, one match per starting offset, in increasing offset order; in
particular pattern `AA` against buffer `AAA` yields exactly the matches at
offsets 0 and 1. -/
theorem c6_exact_overlapping :
    (∀ (data p : List Nat),
      find_exact_matches data p false =
        ((List.range (data.length + 1)).filter
          (fun i => occursAtB data (asciiEncode p) i)).map
          (fun i => (i, p, asciiEncode p))) ∧
    find_exact_matches [65, 65, 65] [65, 65] false =
      [(0, [65, 65], [65, 65]), (1, [65, 65], [65, 65])] := by
  constructor
  · intro data p
    rw [find_exact_false_eq]
    unfold occList
    congr 1
    apply List.filter_congr
    intro i _
    simp
  · rfl

/-! ### Helper facts about printability positions and `takeWhile`/`dropWhile` -/

theorem head_dropWhile_false {l : List Nat} {p : Nat → Bool} {b : Nat}
    (h : (l.dropWhile p).head? = some b) : p b = false := by
  induction l with
  | nil => simp [List.dropWhile] at h
  | cons x xs ih =>
    rw [List.dropWhile_cons] at h
    by_cases hx : p x = true
    · rw [if_pos hx] at h
      exact ih h
    · rw [if_neg hx] at h
      simp only [List.head?_cons, Option.some.injEq] at h
      subst h
      simpa using hx

theorem takeWhile_dropWhile_nil (l : List Nat) (p : Nat → Bool) :
    (l.dropWhile p).takeWhile p = [] := by
  cases hd : l.dropWhile p with
  | nil => rfl
  | cons b bs =>
    have hb : p b = false := head_dropWhile_false (by rw [hd]; rfl)
    rw [List.takeWhile_cons, hb]
    simp

theorem printAt_cons_zero (b : Nat) (l : List Nat) : printAt (b :: l) 0 = isPrintB b := by
  unfold printAt
  rw [List.getElem?_cons_zero]

theorem printAt_cons_succ (b : Nat) (l : List Nat) (k : Nat) :
    printAt (b :: l) (k + 1) = printAt l k := by
  unfold printAt
  rw [List.getElem?_cons_succ]

theorem printAt_append_right (l1 l2 : List Nat) (k : Nat) :
    printAt (l1 ++ l2) (l1.length + k) = printAt l2 k := by
  unfold printAt
  rw [List.getElem?_append, if_neg (by omega)]
  have harith : l1.length + k - l1.length = k := by omega
  rw [harith]

theorem printAt_append_lt (l1 l2 : List Nat) (k : Nat) (hk : k < l1.length)
    (hp : ∀ x ∈ l1, isPrintB x = true) : printAt (l1 ++ l2) k = true := by
  unfold printAt
  rw [List.getElem?_append, if_pos hk, List.getElem?_eq_getElem hk]
  exact hp _ (List.getElem_mem hk)

/-! ### Facts about maximal printable runs -/

theorem IsRun_unique {data : List Nat} {s : Nat} {t1 t2 : List Nat}
    (h1 : IsRun data s t1) (h2 : IsRun data s t2) : t1 = t2 := by
  rw [h1.2.1, h2.2.1]

theorem IsRun_bound {data : List Nat} {s : Nat} {t : List Nat} (h : IsRun data s t) :
    s + t.length ≤ data.length ∧ s < data.length := by
  obtain ⟨hne, ht, _⟩ := h
  have h1 : t.length ≤ (data.drop s).length := by
    rw [ht]
    exact (List.takeWhile_prefix _).sublist.length_le
  rw [List.length_drop] at h1
  have h2 : 0 < t.length := List.length_pos.mpr hne
  omega

theorem IsRun_print {data : List Nat} {s : Nat} {t : List Nat} (h : IsRun data s t) :
    ∀ x ∈ t, isPrintB x = true := by
  intro x hx
  exact List.mem_takeWhile_imp (h.2.1 ▸ hx)

/-! ### The run-extraction loop agrees with the reference form `runsSpec` -/

theorem extractRunsAux_eq :
    ∀ (data : List Nat) (i : Nat) (st : Option (Nat × List Nat)),
      extractRunsAux data i st =
        match st with
        | none => runsSpec data i
        | some sc =>
          (sc.1, sc.2 ++ data.takeWhile isPrintB) ::
            runsSpec (data.dropWhile isPrintB) (i + (data.takeWhile isPrintB).length) := by
  intro data
  induction data with
  | nil =>
    intro i st
    match st with
    | none => simp [extractRunsAux, runsSpec]
    | some ⟨s, cur⟩ => simp [extractRunsAux, runsSpec]
  | cons b rest ih =>
    intro i st
    by_cases hb : isPrintB b
    · match st with
      | none =>
        have lstep : extractRunsAux (b :: rest) i none =
            extractRunsAux rest (i + 1) (some (i, [b])) := by
          simp [extractRunsAux, hb]
        rw [lstep, ih (i + 1) (some (i, [b]))]
        show (i, [b] ++ rest.takeWhile isPrintB) ::
            runsSpec (rest.dropWhile isPrintB) (i + 1 + (rest.takeWhile isPrintB).length) =
          runsSpec (b :: rest) i
        rw [runsSpec]
        rw [if_pos hb]
        rfl
      | some ⟨s, cur⟩ =>
        have lstep : extractRunsAux (b :: rest) i (some (s, cur)) =
            extractRunsAux rest (i + 1) (some (s, cur ++ [b])) := by
          simp [extractRunsAux, hb]
        rw [lstep, ih (i + 1) (some (s, cur ++ [b]))]
        show (s, (cur ++ [b]) ++ rest.takeWhile isPrintB) ::
            runsSpec (rest.dropWhile isPrintB) (i + 1 + (rest.takeWhile isPrintB).length) =
          (s, cur ++ (b :: rest).takeWhile isPrintB) ::
            runsSpec ((b :: rest).dropWhile isPrintB)
              (i + ((b :: rest).takeWhile isPrintB).length)
        rw [List.takeWhile_cons, if_pos hb, List.dropWhile_cons, if_pos hb]
        have harith : i + (b :: rest.takeWhile isPrintB).length =
            i + 1 + (rest.takeWhile isPrintB).length := by
          simp only [List.length_cons]
          omega
        rw [harith, List.append_assoc, List.singleton_append]
    · match st with
      | none =>
        have lstep : extractRunsAux (b :: rest) i none =
            extractRunsAux rest (i + 1) none := by
          simp [extractRunsAux, hb]
        rw [lstep, ih (i + 1) none]
        show runsSpec rest (i + 1) = runsSpec (b :: rest) i
        rw [runsSpec]
        rw [if_neg hb]
      | some ⟨s, cur⟩ =>
        have lstep : extractRunsAux (b :: rest) i (some (s, cur)) =
            (s, cur) :: extractRunsAux rest (i + 1) none := by
          simp [extractRunsAux, hb]
        rw [lstep, ih (i + 1) none]
        show (s, cur) :: runsSpec rest (i + 1) =
          (s, cur ++ (b :: rest).takeWhile isPrintB) ::
            runsSpec ((b :: rest).dropWhile isPrintB)
              (i + ((b :: rest).takeWhile isPrintB).length)
        rw [List.takeWhile_cons, if_neg hb, List.dropWhile_cons, if_neg hb]
        rw [runsSpec]
        rw [if_neg hb]
        simp

theorem extractRuns_eq (data : List Nat) : extractRuns data = runsSpec data 0 :=
  extractRunsAux_eq data 0 none

/-! ### Membership characterization of `runsSpec` -/

theorem mem_runsSpec :
    ∀ (data : List Nat) (i : Nat), ∀ (s : Nat) (t : List Nat),
      (s, t) ∈ runsSpec data i ↔ ∃ s0, s = i + s0 ∧ IsRun data s0 t := by
  intro data i
  induction data, i using runsSpec.induct with
  | case1 i =>
    intro s t
    constructor
    · intro h
      simp [runsSpec] at h
    · rintro ⟨s0, _, hne, ht, _⟩
      rw [List.drop_nil] at ht
      simp only [List.takeWhile_nil] at ht
      exact absurd ht hne
  | case2 b rest i hb ih =>
    intro s t
    have hdecomp : b :: rest =
        (b :: rest.takeWhile isPrintB) ++ rest.dropWhile isPrintB := by
      rw [List.cons_append, List.takeWhile_append_dropWhile]
    have hrw : runsSpec (b :: rest) i =
        (i, b :: rest.takeWhile isPrintB) ::
          runsSpec (rest.dropWhile isPrintB)
            (i + 1 + (rest.takeWhile isPrintB).length) := by
      rw [runsSpec]
      rw [if_pos hb]
    rw [hrw, List.mem_cons]
    constructor
    · rintro (heq | hmem)
      · rw [Prod.mk.injEq] at heq
        obtain ⟨hs, ht⟩ := heq
        subst hs
        subst ht
        refine ⟨0, by omega, List.cons_ne_nil _ _, ?_, Or.inl rfl⟩
        rw [List.drop_zero, List.takeWhile_cons, if_pos hb]
      · obtain ⟨s2, hs2, hrun⟩ := (ih s t).mp hmem
        have hs2pos : 1 ≤ s2 := by
          by_contra h0
          have hz : s2 = 0 := by omega
          subst hz
          obtain ⟨hne, ht, _⟩ := hrun
          rw [List.drop_zero, takeWhile_dropWhile_nil] at ht
          exact hne ht
        obtain ⟨hne, ht, hbd⟩ := hrun
        refine ⟨1 + (rest.takeWhile isPrintB).length + s2, by omega, hne, ?_, Or.inr ?_⟩
        · rw [hdecomp]
          have hlen : 1 + (rest.takeWhile isPrintB).length + s2 =
              (b :: rest.takeWhile isPrintB).length + s2 := by
            simp only [List.length_cons]
            omega
          rw [hlen, List.drop_append]
          exact ht
        · have harith : 1 + (rest.takeWhile isPrintB).length + s2 - 1 =
              (b :: rest.takeWhile isPrintB).length + (s2 - 1) := by
            simp only [List.length_cons]
            omega
          rw [hdecomp, harith, printAt_append_right]
          rcases hbd with h0 | hpa
          · omega
          · exact hpa
    · rintro ⟨s0, hs0, hrun⟩
      rcases Nat.eq_zero_or_pos s0 with h0 | hpos
      · subst h0
        left
        obtain ⟨hne, ht, _⟩ := hrun
        rw [List.drop_zero, List.takeWhile_cons, if_pos hb] at ht
        rw [Prod.mk.injEq]
        exact ⟨by omega, ht⟩
      · right
        obtain ⟨hne, ht, hbd⟩ := hrun
        have hbd2 : printAt (b :: rest) (s0 - 1) = false := by
          rcases hbd with h0 | h
          · omega
          · exact h
        have hPprint : ∀ x ∈ b :: rest.takeWhile isPrintB, isPrintB x = true := by
          intro x hx
          rcases List.mem_cons.mp hx with hx1 | hx2
          · subst hx1; exact hb
          · exact List.mem_takeWhile_imp hx2
        have hge : (b :: rest.takeWhile isPrintB).length ≤ s0 - 1 := by
          by_contra hlt
          push_neg at hlt
          have hcontra := printAt_append_lt (b :: rest.takeWhile isPrintB)
            (rest.dropWhile isPrintB) (s0 - 1) hlt hPprint
          rw [← hdecomp] at hcontra
          rw [hbd2] at hcontra
          cases hcontra
        refine (ih s t).mpr ⟨s0 - (b :: rest.takeWhile isPrintB).length, ?_, ?_⟩
        · simp only [List.length_cons] at hge ⊢
          omega
        · refine ⟨hne, ?_, Or.inr ?_⟩
          · rw [hdecomp] at ht
            have harith : s0 = (b :: rest.takeWhile isPrintB).length +
                (s0 - (b :: rest.takeWhile isPrintB).length) := by
              simp only [List.length_cons] at hge ⊢
              omega
            rw [harith, List.drop_append] at ht
            exact ht
          · have harith : s0 - 1 = (b :: rest.takeWhile isPrintB).length +
                (s0 - (b :: rest.takeWhile isPrintB).length - 1) := by
              simp only [List.length_cons] at hge ⊢
              omega
            rw [hdecomp, harith, printAt_append_right] at hbd2
            exact hbd2
  | case3 b rest i hb ih =>
    intro s t
    have hrw : runsSpec (b :: rest) i = runsSpec rest (i + 1) := by
      rw [runsSpec]
      rw [if_neg hb]
    rw [hrw, ih s t]
    constructor
    · rintro ⟨s1, hs1, hne, ht, hbd⟩
      refine ⟨s1 + 1, by omega, hne, ?_, Or.inr ?_⟩
      · rw [List.drop_succ_cons]
        exact ht
      · have he : s1 + 1 - 1 = s1 := by omega
        rw [he]
        cases s1 with
        | zero =>
          rw [printAt_cons_zero]
          simpa using hb
        | succ k =>
          rw [printAt_cons_succ]
          rcases hbd with h0 | h
          · omega
          · have he2 : k + 1 - 1 = k := by omega
            rw [he2] at h
            exact h
    · rintro ⟨s0, hs0, hne, ht, hbd⟩
      cases s0 with
      | zero =>
        rw [List.drop_zero, List.takeWhile_cons, if_neg hb] at ht
        exact absurd ht hne
      | succ s1 =>
        refine ⟨s1, by omega, hne, ?_, ?_⟩
        · rw [List.drop_succ_cons] at ht
          exact ht
        · cases s1 with
          | zero => exact Or.inl rfl
          | succ k =>
            right
            rcases hbd with h0 | h
            · omega
            · have he : k + 1 + 1 - 1 = k + 1 := by omega
              rw [he, printAt_cons_succ] at h
              have he2 : k + 1 - 1 = k := by omega
              rw [he2]
              exact h

theorem mem_extractRuns {data : List Nat} {s : Nat} {t : List Nat} :
    (s, t) ∈ extractRuns data ↔ IsRun data s t := by
  rw [extractRuns_eq, mem_runsSpec data 0 s t]
  constructor
  · rintro ⟨s0, hs, h⟩
    have : s0 = s := by omega
    subst this
    exact h
  · intro h
    exact ⟨s, by omega, h⟩

theorem runsSpec_pairwise :
    ∀ (data : List Nat) (i : Nat),
      (runsSpec data i).Pairwise (fun a b => a.1 < b.1) := by
  intro data i
  induction data, i using runsSpec.induct with
  | case1 i => simp [runsSpec]
  | case2 b rest i hb ih =>
    have hrw : runsSpec (b :: rest) i =
        (i, b :: rest.takeWhile isPrintB) ::
          runsSpec (rest.dropWhile isPrintB)
            (i + 1 + (rest.takeWhile isPrintB).length) := by
      rw [runsSpec]
      rw [if_pos hb]
    rw [hrw, List.pairwise_cons]
    refine ⟨?_, ih⟩
    intro y hy
    obtain ⟨y1, y2⟩ := y
    obtain ⟨s2, hs2, _⟩ := (mem_runsSpec _ _ y1 y2).mp hy
    simp only
    omega
  | case3 b rest i hb ih =>
    have hrw : runsSpec (b :: rest) i = runsSpec rest (i + 1) := by
      rw [runsSpec]
      rw [if_neg hb]
    rw [hrw]
    exact ih

/-! ### Membership in the wildcard match list -/

theorem mem_find_wildcard {data p : List Nat} {ci : Bool} {s : Nat} {t mb : List Nat} :
    (s, t, mb) ∈ find_wildcard_matches data p ci ↔
      (s, t) ∈ extractRuns data ∧ globMatchB p t ci = true ∧ mb = asciiEncode t := by
  unfold find_wildcard_matches
  rw [List.mem_filterMap]
  constructor
  · rintro ⟨⟨r1, r2⟩, hr, hf⟩
    by_cases hg : globMatchB p r2 ci
    · rw [if_pos hg] at hf
      simp only [Option.some.injEq, Prod.mk.injEq] at hf
      obtain ⟨h1, h2, h3⟩ := hf
      subst h1
      subst h2
      exact ⟨hr, hg, h3.symm⟩
    · rw [if_neg hg] at hf
      cases hf
  · rintro ⟨hmem, hg, rfl⟩
    exact ⟨(s, t), hmem, by rw [if_pos hg]⟩

theorem extractRuns_print {data : List Nat} {s : Nat} {t : List Nat}
    (h : (s, t) ∈ extractRuns data) : ∀ x ∈ t, isPrintB x = true :=
  IsRun_print (mem_extractRuns.mp h)

/-- Claim C2 (amended): the compiled wildcard matcher is anchored at BOTH
ends (`fnmatch.translate` appends `\Z` and `re.match` anchors the start),
so an extracted run yields a match exactly when its ENTIRE text lies in
the glob language of the pattern — a run whose text continues past the
pattern's literal part matches only when a wildcard of the pattern absorbs
the remainder.  In particular the run `ABCDEF` matches `ABC*` but, contrary
to the original claim, does not match `ABC?`. -/
theorem c2_wildcard_anchored (data p : List Nat) (ci : Bool) (s : Nat) (t : List Nat)
    (h : (s, t) ∈ extractRuns data) :
    (∃ mb, (s, t, mb) ∈ find_wildcard_matches data p ci) ↔
      globMatchB p t ci = true := by
  constructor
  · rintro ⟨mb, hmb⟩
    exact (mem_find_wildcard.mp hmb).2.1
  · intro hg
    exact ⟨asciiEncode t, mem_find_wildcard.mpr ⟨h, hg, rfl⟩⟩

/-- Counterexample to claim C2 as stated: the buffer holds exactly the run
`ABCDEF` (at offset 1), yet pattern `ABC?` produces NO match, because the
matcher requires the whole run to satisfy the pattern (`ABC?` accepts only
4-character texts), not merely a prefix of the run. -/
theorem c2_counterexample :
    ((1, [65, 66, 67, 68, 69, 70]) ∈ extractRuns [0, 65, 66, 67, 68, 69, 70, 0]) ∧
      find_wildcard_matches [0, 65, 66, 67, 68, 69, 70, 0] [65, 66, 67, 63] false = [] := by
  constructor
  · decide
  · rfl

/-- Witness for C2: the amended theorem applied to the run `ABCDEF` of a
concrete buffer and the pattern `ABC*`. -/
theorem c2_wildcard_anchored_witness :
    (∃ mb, ((1 : Nat), [65, 66, 67, 68, 69, 70], mb) ∈
        find_wildcard_matches [0, 65, 66, 67, 68, 69, 70, 0] [65, 66, 67, 42] false) ↔
      globMatchB [65, 66, 67, 42] [65, 66, 67, 68, 69, 70] false = true :=
  c2_wildcard_anchored [0, 65, 66, 67, 68, 69, 70, 0] [65, 66, 67, 42] false 1
    [65, 66, 67, 68, 69, 70] (by decide)

/-! ### Exactly one match per satisfying run (claim C5) -/

theorem countP_find_wildcard (data p : List Nat) (ci : Bool) (s : Nat) :
    (find_wildcard_matches data p ci).countP (fun m => m.1 == s) =
      (extractRuns data).countP (fun r => globMatchB p r.2 ci && (r.1 == s)) := by
  unfold find_wildcard_matches
  induction extractRuns data with
  | nil => rfl
  | cons r rest ih =>
    rw [List.filterMap_cons]
    by_cases hg : globMatchB p r.2 ci
    · rw [if_pos hg]
      rw [List.countP_cons, List.countP_cons, ih]
      simp [hg]
    · rw [if_neg hg]
      rw [List.countP_cons, ih]
      simp [hg]

theorem countP_pairwise_unique {l : List (Nat × List Nat)} {Q : (Nat × List Nat) → Bool}
    {s : Nat} {t : List Nat}
    (hpw : l.Pairwise (fun a b => a.1 < b.1))
    (hmem : (s, t) ∈ l) (hQ : Q (s, t) = true)
    (hQs : ∀ r, Q r = true → r.1 = s) :
    l.countP Q = 1 := by
  induction l with
  | nil => cases hmem
  | cons x rest ih =>
    rw [List.countP_cons]
    obtain ⟨hlt, hpwrest⟩ := List.pairwise_cons.mp hpw
    rcases List.mem_cons.mp hmem with heq | hmemr
    · have hx : Q x = true := heq ▸ hQ
      rw [if_pos hx]
      have hrest : rest.countP Q = 0 := by
        rw [List.countP_eq_zero]
        intro r hr hQr
        have h1 : r.1 = s := hQs r hQr
        have h2 : x.1 < r.1 := hlt r hr
        have h3 : x.1 = s := by rw [← heq]
        omega
      rw [hrest]
    · have hxne : Q x = false := by
        by_contra hcon
        have hx : Q x = true := by
          cases hqx : Q x
          · exact absurd hqx hcon
          · rfl
        have h1 : x.1 = s := hQs x hx
        have h2 : x.1 < s := by
          have := hlt (s, t) hmemr
          simpa using this
        omega
      rw [hxne]
      simp only [Bool.false_eq_true, if_false, Nat.add_zero]
      exact ih hpwrest hmemr

/-- Claim C5: every extracted run whose (entire) text satisfies the
wildcard pattern yields exactly one match, positioned at the run's start
offset, with matched_text and matched_bytes both equal to the whole run's
text. -/
theorem c5_whole_run_match (data p : List Nat) (ci : Bool) (s : Nat) (t : List Nat)
    (hrun : (s, t) ∈ extractRuns data) (hg : globMatchB p t ci = true) :
    (s, t, t) ∈ find_wildcard_matches data p ci ∧
      (find_wildcard_matches data p ci).countP (fun m => m.1 == s) = 1 := by
  have henc : asciiEncode t = t := asciiEncode_of_print (extractRuns_print hrun)
  constructor
  · refine mem_find_wildcard.mpr ⟨hrun, hg, henc.symm⟩
  · rw [countP_find_wildcard]
    refine countP_pairwise_unique ?_ hrun ?_ ?_
    · rw [extractRuns_eq]
      exact runsSpec_pairwise data 0
    · simp [hg]
    · intro r hr
      rw [Bool.and_eq_true] at hr
      simpa using hr.2

/-- Witness for C5: runs `ABCDEF` against pattern `ABC*` in a concrete
buffer: one match at the run start carrying the whole run text. -/
theorem c5_whole_run_match_witness :
    ((1 : Nat), [65, 66, 67, 68, 69, 70], [65, 66, 67, 68, 69, 70]) ∈
        find_wildcard_matches [0, 65, 66, 67, 68, 69, 70, 0] [65, 66, 67, 42] false ∧
      (find_wildcard_matches [0, 65, 66, 67, 68, 69, 70, 0] [65, 66, 67, 42] false).countP
          (fun m => m.1 == 1) = 1 :=
  c5_whole_run_match [0, 65, 66, 67, 68, 69, 70, 0] [65, 66, 67, 42] false 1
    [65, 66, 67, 68, 69, 70] (by decide) (by decide)

/-! ### Placeholder replacement construction (claims C7 and C10) -/

theorem flatten_replicate_length (n : Nat) (ph : List Nat) :
    (List.flatten (List.replicate n ph)).length = n * ph.length := by
  induction n with
  | zero => simp
  | succ n ih =>
    rw [List.replicate_succ, List.flatten_cons, List.length_append, ih, Nat.add_one_mul]
    omega

theorem flatten_replicate_getElem (ph : List Nat) :
    ∀ (n k : Nat), k < n * ph.length →
      (List.flatten (List.replicate n ph))[k]? = ph[k % ph.length]? := by
  intro n
  induction n with
  | zero =>
    intro k hk
    rw [Nat.zero_mul] at hk
    omega
  | succ n ih =>
    intro k hk
    rw [List.replicate_succ, List.flatten_cons, List.getElem?_append]
    by_cases hlt : k < ph.length
    · rw [if_pos hlt, Nat.mod_eq_of_lt hlt]
    · rw [if_neg hlt]
      have hple : ph.length ≤ k := by omega
      have hsm : (n + 1) * ph.length = n * ph.length + ph.length := Nat.add_one_mul n ph.length
      have h2 : k - ph.length < n * ph.length := by omega
      rw [ih (k - ph.length) h2]
      rw [Nat.mod_eq_sub_mod hple]

theorem mem_flatten_replicate_take {ph : List Nat} {n L : Nat} {x : Nat}
    (hx : x ∈ (List.flatten (List.replicate n ph)).take L) : x ∈ ph := by
  have h1 : x ∈ List.flatten (List.replicate n ph) := List.take_subset _ _ hx
  rw [List.mem_flatten] at h1
  obtain ⟨l, hl, hxl⟩ := h1
  rw [List.eq_of_mem_replicate hl] at hxl
  exact hxl

theorem placeholderRepl_eq_of_ne {ph : List Nat} {L : Nat} (h : ¬ ph.length = 0) :
    placeholderRepl ph L =
      Except.ok
        ((if (asciiEncode ((List.flatten (List.replicate (L / ph.length + 1) ph)).take L)).length < L
          then asciiEncode ((List.flatten (List.replicate (L / ph.length + 1) ph)).take L) ++
            List.replicate
              (L - (asciiEncode ((List.flatten (List.replicate (L / ph.length + 1) ph)).take L)).length) 0
          else asciiEncode ((List.flatten (List.replicate (L / ph.length + 1) ph)).take L)).take L) := by
  unfold placeholderRepl
  rw [if_neg h]

/-- Claim C7: for a nonempty (ASCII) placeholder the replacement for an
`L`-byte match is total and is exactly the placeholder repeated cyclically,
truncated to length `L` — in particular its byte length always equals the
matched length, and `Placeholder("AB")` on a 5-byte match gives `ABABA`. -/
theorem c7_placeholder_repl (ph : List Nat) (L : Nat) (hne : ph ≠ [])
    (hascii : ∀ x ∈ ph, x < 128) :
    ∃ r, placeholderRepl ph L = Except.ok r ∧ r.length = L ∧
      ∀ k, k < L → r[k]? = ph[k % ph.length]? := by
  have hlen : 0 < ph.length := List.length_pos.mpr hne
  have hdm := Nat.div_add_mod L ph.length
  have hml := Nat.mod_lt L hlen
  have e1 : (L / ph.length + 1) * ph.length = ph.length * (L / ph.length) + ph.length := by
    rw [Nat.succ_mul, Nat.mul_comm]
  have hflatlen := flatten_replicate_length (L / ph.length + 1) ph
  have hLlt : L < (L / ph.length + 1) * ph.length := by omega
  have hphs_len : ((List.flatten (List.replicate (L / ph.length + 1) ph)).take L).length = L := by
    rw [List.length_take]
    omega
  have henc : asciiEncode ((List.flatten (List.replicate (L / ph.length + 1) ph)).take L) =
      (List.flatten (List.replicate (L / ph.length + 1) ph)).take L := by
    unfold asciiEncode
    rw [List.filter_eq_self]
    intro x hx
    exact decide_eq_true (hascii x (mem_flatten_replicate_take hx))
  refine ⟨(List.flatten (List.replicate (L / ph.length + 1) ph)).take L, ?_, hphs_len, ?_⟩
  · rw [placeholderRepl_eq_of_ne (by omega), henc, if_neg (by omega)]
    rw [List.take_take, Nat.min_self]
  · intro k hk
    rw [List.getElem?_take, if_pos hk]
    exact flatten_replicate_getElem ph (L / ph.length + 1) k (by omega)

/-- Witness for C7: the general theorem instantiated at `Placeholder("AB")`
and a 5-byte match together with the concrete outcome `ABABA`. -/
theorem c7_placeholder_repl_witness :
    (∃ r, placeholderRepl [65, 66] 5 = Except.ok r ∧ r.length = 5 ∧
        ∀ k, k < 5 → r[k]? = [65, 66][k % 2]?) ∧
      placeholderRepl [65, 66] 5 = Except.ok [65, 66, 65, 66, 65] :=
  ⟨c7_placeholder_repl [65, 66] 5 (by decide) (by decide), by rfl⟩

/-! ### Unknown replacement mode (claim C8) -/

theorem computeRepl_placeholder (ph : List Nat) (L : Nat) :
    computeRepl "placeholder" ph L = placeholderRepl ph L := by
  unfold computeRepl
  rw [if_neg (by decide), if_pos rfl]

theorem computeRepl_unknown {mode : String} (h1 : ¬ mode = "null")
    (h2 : ¬ mode = "placeholder") (ph : List Nat) (L : Nat) :
    computeRepl mode ph L = Except.error (unknownModeMsg mode) := by
  unfold computeRepl
  rw [if_neg h1, if_neg h2]

/-- Claim C8 (amended): with an unrecognized replacement mode, `patch_file`
raises the `Unknown mode` error before writing any byte WHENEVER at least
one match was found (the check sits inside the per-match loop, so the first
iteration raises before its write); with no matches the loop body never
runs, the mode is never examined, and the call succeeds with zero patches.
In both cases the buffer is returned untouched. -/
theorem c8_unknown_mode (data : List Nat) (patterns : List (List Nat)) (ph : List Nat)
    (ci : Bool) (mode : String) (h1 : mode ≠ "null") (h2 : mode ≠ "placeholder") :
    (gatherMatches data patterns ci = [] →
        patch_file data patterns mode ph ci = Except.ok (data, 0, [])) ∧
      (gatherMatches data patterns ci ≠ [] →
        patch_file data patterns mode ph ci = Except.error (unknownModeMsg mode, data)) := by
  constructor
  · intro hemp
    unfold patch_file
    rw [hemp]
    rfl
  · intro hne
    unfold patch_file
    cases hs : sortDesc (gatherMatches data patterns ci) with
    | nil => exact absurd (sortDesc_eq_nil_iff.mp hs) hne
    | cons m rest =>
      obtain ⟨idx, mstr, mbytes, pat⟩ := m
      simp [applyLoop, computeRepl_unknown h1 h2 ph mbytes.length]

/-- Counterexample to claim C8 as stated: with an unrecognized mode but no
match found (pattern `B` does not occur in buffer `A`), `patch_file`
succeeds with zero patches instead of failing with an error. -/
theorem c8_counterexample :
    patch_file [65] [[66]] "bogus" [] false = Except.ok ([65], 0, []) := by rfl

/-- Witness for C8: the amended theorem applied to a buffer in which the
pattern does match: the unknown-mode error is raised and the error state
carries the untouched buffer. -/
theorem c8_unknown_mode_witness :
    patch_file [65] [[65]] "bogus" [] false =
      Except.error (unknownModeMsg "bogus", [65]) :=
  (c8_unknown_mode [65] [[65]] [] false "bogus" (by decide) (by decide)).2 (by decide)

/-! ### Every gathered match lies inside the buffer -/

theorem occursAtB_bound {data u : List Nat} {i : Nat} (hocc : occursAtB data u i = true)
    (hi : i ≤ data.length) : i + u.length ≤ data.length := by
  unfold occursAtB at hocc
  rw [decide_eq_true_eq] at hocc
  have hl := congrArg List.length hocc
  rw [List.length_take, List.length_drop] at hl
  omega

theorem find_exact_inbounds {data p : List Nat} {ci : Bool} {i : Nat} {str u : List Nat}
    (h : (i, str, u) ∈ find_exact_matches data p ci) : i + u.length ≤ data.length := by
  cases ci with
  | false =>
    rw [find_exact_false_eq, List.mem_map] at h
    obtain ⟨i2, hi2, heq⟩ := h
    simp only [Prod.mk.injEq] at heq
    obtain ⟨he1, _, he3⟩ := heq
    subst he1
    rw [mem_occList] at hi2
    rw [← he3]
    exact occursAtB_bound hi2.2.2 (by omega)
  | true =>
    rw [find_exact_true_eq, List.mem_flatten] at h
    obtain ⟨l, hl, hml⟩ := h
    rw [List.mem_map] at hl
    obtain ⟨cand, _, rfl⟩ := hl
    rw [List.mem_map] at hml
    obtain ⟨i2, hi2, heq⟩ := hml
    simp only [Prod.mk.injEq] at heq
    obtain ⟨he1, _, he3⟩ := heq
    subst he1
    rw [mem_occList] at hi2
    rw [← he3]
    exact occursAtB_bound hi2.2.2 (by omega)

theorem gather_inbounds (data : List Nat) (patterns : List (List Nat)) (ci : Bool) :
    ∀ m ∈ gatherMatches data patterns ci, m.1 + m.2.2.1.length ≤ data.length := by
  intro m hm
  unfold gatherMatches at hm
  rw [List.mem_flatten] at hm
  obtain ⟨l, hl, hml⟩ := hm
  rw [List.mem_map] at hl
  obtain ⟨p, _, rfl⟩ := hl
  rw [List.mem_map] at hml
  obtain ⟨m3, hm3, rfl⟩ := hml
  obtain ⟨i, str, u⟩ := m3
  show i + u.length ≤ data.length
  unfold findMatchesFor at hm3
  by_cases hw : isWildcardPat p
  · rw [if_pos hw] at hm3
    obtain ⟨hrun, _, henc⟩ := mem_find_wildcard.mp hm3
    have hb := (IsRun_bound (mem_extractRuns.mp hrun)).1
    have hue : u = str := by
      rw [henc, asciiEncode_of_print (extractRuns_print hrun)]
    rw [hue]
    exact hb
  · rw [if_neg hw] at hm3
    exact find_exact_inbounds hm3

/-! ### Totality of the patching loop for recognized modes -/

theorem placeholderRepl_total {ph : List Nat} (L : Nat) (h : ¬ ph.length = 0) :
    ∃ r, placeholderRepl ph L = Except.ok r := by
  rw [placeholderRepl_eq_of_ne h]
  exact ⟨_, rfl⟩

theorem applyLoop_total {mode : String} {ph : List Nat}
    (hmode : mode = "null" ∨ (mode = "placeholder" ∧ ph ≠ [])) :
    ∀ (ms : List Match4) (buf : List Nat),
      (∀ m ∈ ms, m.1 + m.2.2.1.length ≤ buf.length) →
      ∃ res, applyLoop buf ms mode ph = Except.ok res := by
  intro ms
  induction ms with
  | nil => exact fun buf _ => ⟨(buf, 0, []), rfl⟩
  | cons m rest ih =>
    intro buf hbnd
    obtain ⟨idx, mstr, mbytes, pat⟩ := m
    have hrepl : ∃ repl, computeRepl mode ph mbytes.length = Except.ok repl := by
      rcases hmode with h | ⟨h, hne⟩
      · refine ⟨List.replicate mbytes.length 0, ?_⟩
        rw [h]
        rfl
      · obtain ⟨r, hr⟩ := placeholderRepl_total mbytes.length
          (fun h0 => hne (List.eq_nil_of_length_eq_zero h0))
        refine ⟨r, ?_⟩
        rw [h, computeRepl_placeholder]
        exact hr
    obtain ⟨repl, hrepl⟩ := hrepl
    have hlen : repl.length = mbytes.length := computeRepl_ok_length hrepl
    have hw : writeRange buf idx repl =
        Except.ok (buf.take idx ++ repl ++ buf.drop (idx + repl.length)) := by
      rw [writeRange_eq_ok]
      refine ⟨Or.inr ?_, rfl⟩
      rw [hlen]
      exact hbnd _ (List.mem_cons_self _ _)
    have hbuf2len : (buf.take idx ++ repl ++ buf.drop (idx + repl.length)).length =
        buf.length := writeRange_ok_length hw
    obtain ⟨res, hres⟩ := ih (buf.take idx ++ repl ++ buf.drop (idx + repl.length))
      (by
        intro m2 hm2
        rw [hbuf2len]
        exact hbnd m2 (List.mem_cons_of_mem _ hm2))
    obtain ⟨out, n, logs⟩ := res
    exact ⟨(out, n + 1, (mstr, pat, idx) :: logs), by
      simp only [applyLoop, hrepl, hw, hres]⟩

/-- Claim C10: the placeholder branch of `patch_file` divides by the
placeholder's length without a guard: with an empty placeholder and at
least one match found, the run fails with Python's `ZeroDivisionError`
(raised at the first match, before any byte is written — the error state
carries the untouched buffer); with any non-empty placeholder the
construction is total and the whole patch run succeeds. -/
theorem c10_placeholder_division (data : List Nat) (patterns : List (List Nat)) (ci : Bool) :
    (gatherMatches data patterns ci ≠ [] →
        patch_file data patterns "placeholder" [] ci = Except.error (zeroDivMsg, data)) ∧
      ∀ ph : List Nat, ph ≠ [] →
        ∃ res, patch_file data patterns "placeholder" ph ci = Except.ok res := by
  constructor
  · intro hne
    unfold patch_file
    cases hs : sortDesc (gatherMatches data patterns ci) with
    | nil => exact absurd (sortDesc_eq_nil_iff.mp hs) hne
    | cons m rest =>
      obtain ⟨idx, mstr, mbytes, pat⟩ := m
      have hz : computeRepl "placeholder" [] mbytes.length = Except.error zeroDivMsg := by
        rw [computeRepl_placeholder]
        rfl
      simp [applyLoop, hz]
  · intro ph hne
    exact applyLoop_total (Or.inr ⟨rfl, hne⟩) (sortDesc (gatherMatches data patterns ci)) data
      (by
        intro m hm
        exact gather_inbounds data patterns ci m (mem_sortDesc.mp hm))

/-- Witness for C10: pattern `BAD` matches buffer `BAD`; with the empty
placeholder the patch run stops with the division error and the buffer is
untouched. -/
theorem c10_placeholder_division_witness :
    patch_file [66, 65, 68] [[66, 65, 68]] "placeholder" [] false =
      Except.error (zeroDivMsg, [66, 65, 68]) :=
  (c10_placeholder_division [66, 65, 68] [[66, 65, 68]] false).1 (by decide)

/-! ### Case-insensitive literal search (claim C3) -/

/-- Claim C3 (amended): case-insensitive literal search searches the three
byte-string variants (original, all-lower, all-upper) after de-duplication
and unions their hits; against the buffer `TEST Test test` the pattern
`test` therefore yields exactly 2 matches — the all-lowercase occurrence at
offset 10 and the all-uppercase occurrence at offset 0, each with its
on-disk casing as matched_text.  The mixed-case occurrence `Test` at offset
5 is NOT found, because only the three exact variants are searched. -/
theorem c3_case_insensitive :
    find_exact_matches [84, 69, 83, 84, 32, 84, 101, 115, 116, 32, 116, 101, 115, 116]
        [116, 101, 115, 116] true =
      [(10, [116, 101, 115, 116], [116, 101, 115, 116]),
       (0, [84, 69, 83, 84], [84, 69, 83, 84])] := by rfl

/-- Counterexample to claim C3 as stated: the same search yields 2 matches,
not the claimed 3, and no match is reported at offset 5 where the
mixed-case occurrence `Test` sits. -/
theorem c3_counterexample :
    (find_exact_matches [84, 69, 83, 84, 32, 84, 101, 115, 116, 32, 116, 101, 115, 116]
          [116, 101, 115, 116] true).length = 2 ∧
      ∀ m ∈ find_exact_matches [84, 69, 83, 84, 32, 84, 101, 115, 116, 32, 116, 101, 115, 116]
          [116, 101, 115, 116] true, m.1 ≠ 5 := by decide

/-! ### Wildcard metacharacters (claim C4) -/

/-- Claim C4 (amended): besides `*` and `?`, the compiled matcher inherits
fnmatch's bracket sets: `[seq]` matches one character of the set and
`[!seq]` one character outside it, while other regex-special characters
(here `.` and `+`) are escaped and match literally. -/
theorem c4_metacharacters :
    globMatchB [91, 65, 66, 93, 42] [65] false = true ∧
      globMatchB [91, 65, 66, 93, 42] [67] false = false ∧
      globMatchB [91, 33, 65, 93] [66] false = true ∧
      globMatchB [91, 33, 65, 93] [65] false = false ∧
      globMatchB [65, 46, 42] [65, 88, 66] false = false ∧
      globMatchB [65, 46, 42] [65, 46, 66] false = true ∧
      globMatchB [65, 43, 66] [65, 65, 66] false = false ∧
      globMatchB [65, 43, 66] [65, 43, 66] false = true := by decide

/-- Counterexample to claim C4 as stated: under the literal reading of the
specification (`literalGlobMatchB`, only `*`/`?` special) the pattern
`[AB]*` cannot match the one-character run `A`, yet `find_wildcard_matches`
does report that match, because fnmatch treats `[AB]` as a character
set. -/
theorem c4_counterexample :
    find_wildcard_matches [0, 65, 0] [91, 65, 66, 93, 42] false = [(1, [65], [65])] ∧
      literalGlobMatchB [91, 65, 66, 93, 42] [65] false = false := by
  constructor
  · rfl
  · rfl

/-! ### Pointwise characterization of maximal runs (towards claim C9) -/

theorem printAt_eq_false_iff {data : List Nat} {j : Nat} :
    printAt data j = false ↔ ∀ b, data[j]? = some b → isPrintB b = false := by
  unfold printAt
  cases h : data[j]? with
  | none => simp
  | some b =>
    constructor
    · intro hb b2 he
      injection he with he
      rw [← he]
      exact hb
    · intro hall
      exact hall b rfl

theorem takeWhile_eq_of_getElem {p : Nat → Bool} :
    ∀ (t l : List Nat),
      (∀ k (hk : k < t.length), l[k]? = some (t[k]) ∧ p (t[k]) = true) →
      (∀ b, l[t.length]? = some b → p b = false) →
      l.takeWhile p = t := by
  intro t
  induction t with
  | nil =>
    intro l _ hend
    cases hl : l with
    | nil => rfl
    | cons b bs =>
      have hb : p b = false := hend b (by rw [hl]; simp)
      rw [List.takeWhile_cons, hb]
      simp
  | cons x xs ih =>
    intro l helem hend
    have h0 := helem 0 (by simp)
    rw [List.getElem_cons_zero] at h0
    cases hl : l with
    | nil =>
      rw [hl] at h0
      simp at h0
    | cons b bs =>
      rw [hl, List.getElem?_cons_zero] at h0
      obtain ⟨h1, h2⟩ := h0
      injection h1 with h1
      subst h1
      rw [List.takeWhile_cons, if_pos h2]
      congr 1
      refine ih bs ?_ ?_
      · intro k hk
        have hk2 : k + 1 < (b :: xs).length := by
          simp only [List.length_cons]
          omega
        have hkk := helem (k + 1) hk2
        rw [hl, List.getElem?_cons_succ, List.getElem_cons_succ] at hkk
        exact hkk
      · intro b2 hb2
        refine hend b2 ?_
        rw [hl]
        show (b :: bs)[xs.length + 1]? = some b2
        rw [List.getElem?_cons_succ]
        exact hb2

theorem IsRun_iff {data : List Nat} {s : Nat} {t : List Nat} :
    IsRun data s t ↔
      (t ≠ [] ∧
        (∀ k (hk : k < t.length), data[s + k]? = some (t[k]) ∧ isPrintB (t[k]) = true) ∧
        printAt data (s + t.length) = false ∧
        (s = 0 ∨ printAt data (s - 1) = false)) := by
  constructor
  · rintro ⟨hne, ht, hbd⟩
    have hdec : data.drop s = t ++ (data.drop s).dropWhile isPrintB := by
      conv_lhs => rw [← List.takeWhile_append_dropWhile (p := isPrintB) (l := data.drop s)]
      rw [← ht]
    refine ⟨hne, ?_, ?_, hbd⟩
    · intro k hk
      constructor
      · rw [← List.getElem?_drop, hdec, List.getElem?_append, if_pos hk,
          List.getElem?_eq_getElem hk]
      · exact IsRun_print ⟨hne, ht, hbd⟩ _ (List.getElem_mem hk)
    · unfold printAt
      rw [← List.getElem?_drop, hdec, List.getElem?_append, if_neg (by omega)]
      have he : t.length - t.length = 0 := by omega
      rw [he]
      cases hdw : (data.drop s).dropWhile isPrintB with
      | nil => rfl
      | cons d ds =>
        rw [List.getElem?_cons_zero]
        exact head_dropWhile_false (by rw [hdw]; rfl)
  · rintro ⟨hne, helem, hend, hbd⟩
    refine ⟨hne, ?_, hbd⟩
    symm
    refine takeWhile_eq_of_getElem t (data.drop s) ?_ ?_
    · intro k hk
      rw [List.getElem?_drop]
      exact helem k hk
    · intro b hb
      rw [List.getElem?_drop] at hb
      exact (printAt_eq_false_iff.mp hend) b hb

/-! ### Pointwise effect of a NullFill patch run -/

theorem computeRepl_null (ph : List Nat) (L : Nat) :
    computeRepl "null" ph L = Except.ok (List.replicate L 0) := rfl

theorem replicate_zero_getElem {L m : Nat} (h : m < L) :
    (List.replicate L (0 : Nat))[m]? = some 0 := by
  have hb : m < (List.replicate L (0 : Nat)).length := by
    rw [List.length_replicate]
    exact h
  rw [List.getElem?_eq_getElem hb, List.getElem_replicate]

theorem applyLoop_null_getElem {ph : List Nat} :
    ∀ (ms : List Match4) (buf out : List Nat) (n : Nat) (logs : List LogEntry),
      applyLoop buf ms "null" ph = Except.ok (out, n, logs) →
      out.length = buf.length ∧
        (∀ j, inRanges ms j → out[j]? = some 0) ∧
        (∀ j, ¬ inRanges ms j → out[j]? = buf[j]?) := by
  intro ms
  induction ms with
  | nil =>
    intro buf out n logs h
    cases h
    refine ⟨rfl, ?_, fun _ _ => rfl⟩
    intro j hj
    obtain ⟨m, hm, _⟩ := hj
    cases hm
  | cons m rest ih =>
    intro buf out n logs h
    obtain ⟨idx, mstr, mbytes, pat⟩ := m
    cases hw : writeRange buf idx (List.replicate mbytes.length 0) with
    | error e => simp [applyLoop, computeRepl_null, hw] at h
    | ok buf2 =>
      cases hrec : applyLoop buf2 rest "null" ph with
      | error e => simp [applyLoop, computeRepl_null, hw, hrec] at h
      | ok res =>
        obtain ⟨out2, n2, logs2⟩ := res
        simp only [applyLoop, computeRepl_null, hw, hrec, Except.ok.injEq,
          Prod.mk.injEq] at h
        obtain ⟨hout, hn, hlogs⟩ := h
        subst hout
        subst hn
        subst hlogs
        obtain ⟨ihlen, ih0, ihkeep⟩ := ih buf2 out2 n2 logs2 hrec
        have hreplen : (List.replicate mbytes.length (0 : Nat)).length = mbytes.length :=
          List.length_replicate _ _
        refine ⟨by rw [ihlen, writeRange_ok_length hw], ?_, ?_⟩
        · intro j hj
          obtain ⟨m2, hm2, hr⟩ := hj
          rcases List.mem_cons.mp hm2 with heq | hmr
          · subst heq
            have hr1 : idx ≤ j := hr.1
            have hr2 : j < idx + mbytes.length := hr.2
            by_cases hrest : inRanges rest j
            · exact ih0 j hrest
            · rw [ihkeep j hrest]
              rw [writeRange_getElem_in hw j hr1 (by rw [hreplen]; exact hr2)]
              exact replicate_zero_getElem (by omega)
          · exact ih0 j ⟨m2, hmr, hr⟩
        · intro j hj
          have hhead : ¬ (idx ≤ j ∧ j < idx + mbytes.length) := by
            intro hcon
            exact hj ⟨(idx, mstr, mbytes, pat), List.mem_cons_self _ _, hcon⟩
          have htail : ¬ inRanges rest j := by
            rintro ⟨m2, hm2, hcon⟩
            exact hj ⟨m2, List.mem_cons_of_mem _ hm2, hcon⟩
          rw [ihkeep j htail]
          exact writeRange_getElem_out hw j (by rw [hreplen]; omega)

/-! ### A NullFill-patched buffer has exactly the non-matching runs -/

theorem runs_of_nulled (data out : List Nat) (G : List Nat → Bool) (M : List Match3)
    (hM : ∀ m ∈ M, IsRun data m.1 m.2.1 ∧ m.2.2 = m.2.1 ∧ G m.2.1 = true)
    (hMall : ∀ s t, IsRun data s t → G t = true → (s, t, t) ∈ M)
    (h0 : ∀ j, (∃ m ∈ M, m.1 ≤ j ∧ j < m.1 + m.2.2.length) → out[j]? = some 0)
    (hkeep : ∀ j, ¬ (∃ m ∈ M, m.1 ≤ j ∧ j < m.1 + m.2.2.length) → out[j]? = data[j]?) :
    ∀ s t, IsRun out s t → IsRun data s t ∧ G t = false := by
  intro s t hrun
  rw [IsRun_iff] at hrun
  obtain ⟨hne, helem, hend, hbd⟩ := hrun
  have hlen0 : 0 < t.length := List.length_pos.mpr hne
  have step1 : ∀ k, k < t.length →
      ¬ (∃ m ∈ M, m.1 ≤ s + k ∧ s + k < m.1 + m.2.2.length) := by
    intro k hk hex
    have h1 := (helem k hk).1
    have h2 := (helem k hk).2
    have h3 := h0 (s + k) hex
    rw [h1] at h3
    injection h3 with h3
    exact isPrintB_ne_zero h2 h3
  have step2 : ∀ k (hk : k < t.length), data[s + k]? = some (t[k]) := by
    intro k hk
    rw [← hkeep (s + k) (step1 k hk)]
    exact (helem k hk).1
  have hnotend : ¬ (∃ m ∈ M, m.1 ≤ s + t.length ∧ s + t.length < m.1 + m.2.2.length) := by
    rintro ⟨m, hmM, hm1, hm2⟩
    obtain ⟨hmrun, hmbytes, _⟩ := hM m hmM
    have hble : m.2.2.length = m.2.1.length := by rw [hmbytes]
    rcases Nat.lt_or_ge m.1 (s + t.length) with hlt | hge
    · exact step1 (t.length - 1) (by omega) ⟨m, hmM, by omega, by omega⟩
    · have hmeq : m.1 = s + t.length := by omega
      have hmbd : printAt data (m.1 - 1) = false := by
        rcases hmrun.2.2 with h0' | h'
        · omega
        · exact h'
      have hk : t.length - 1 < t.length := by omega
      have hdata := step2 (t.length - 1) hk
      have harel : m.1 - 1 = s + (t.length - 1) := by omega
      rw [harel] at hmbd
      unfold printAt at hmbd
      rw [hdata] at hmbd
      have hred : isPrintB (t[t.length - 1]) = false := hmbd
      have htrue := (helem (t.length - 1) hk).2
      rw [htrue] at hred
      cases hred
  have step_end : printAt data (s + t.length) = false := by
    unfold printAt at hend ⊢
    rw [← hkeep (s + t.length) hnotend]
    exact hend
  have step_left : s = 0 ∨ printAt data (s - 1) = false := by
    cases s with
    | zero => exact Or.inl rfl
    | succ s2 =>
      right
      have hout_prev : printAt out s2 = false := by
        rcases hbd with h' | h'
        · cases h'
        · exact h'
      by_cases hin : ∃ m ∈ M, m.1 ≤ s2 ∧ s2 < m.1 + m.2.2.length
      · exfalso
        obtain ⟨m, hmM, hm1, hm2⟩ := hin
        obtain ⟨hmrun, hmbytes, _⟩ := hM m hmM
        have hble : m.2.2.length = m.2.1.length := by rw [hmbytes]
        have hsge : m.1 + m.2.2.length ≤ s2 + 1 := by
          by_contra hcon
          push_neg at hcon
          exact step1 0 (by omega) ⟨m, hmM, by omega, by omega⟩
        have hmmax : printAt data (m.1 + m.2.1.length) = false :=
          (IsRun_iff.mp hmrun).2.2.1
        have he : m.1 + m.2.1.length = s2 + 1 := by omega
        rw [he] at hmmax
        have hdata := step2 0 hlen0
        have he2 : s2 + 1 + 0 = s2 + 1 := by omega
        rw [he2] at hdata
        unfold printAt at hmmax
        rw [hdata] at hmmax
        have hred : isPrintB (t[0]) = false := hmmax
        have htrue := (helem 0 hlen0).2
        rw [htrue] at hred
        cases hred
      · have he3 : s2 + 1 - 1 = s2 := by omega
        rw [he3]
        unfold printAt at hout_prev ⊢
        rw [← hkeep s2 hin]
        exact hout_prev
  have hdatarun : IsRun data s t :=
    IsRun_iff.mpr ⟨hne, fun k hk => ⟨step2 k hk, (helem k hk).2⟩, step_end, step_left⟩
  refine ⟨hdatarun, ?_⟩
  by_contra hG
  have hGt : G t = true := by
    revert hG
    cases G t <;> simp
  have hmem := hMall s t hdatarun hGt
  have hz : out[s]? = some 0 :=
    h0 s ⟨(s, t, t), hmem, le_refl s, by show s < s + t.length; omega⟩
  have h1 := (helem 0 hlen0).1
  have he : s + 0 = s := by omega
  rw [he] at h1
  rw [h1] at hz
  injection hz with hz
  exact isPrintB_ne_zero (helem 0 hlen0).2 hz

/-! ### No occurrence of a printable byte string survives NullFill -/

theorem occursAtB_lt_length {data u : List Nat} {i : Nat} (hu : u ≠ [])
    (h : occursAtB data u i = true) : i < data.length := by
  unfold occursAtB at h
  rw [decide_eq_true_eq] at h
  have hl := congrArg List.length h
  rw [List.length_take, List.length_drop] at hl
  have := List.length_pos.mpr hu
  omega

theorem occursAt_out_false {data out u : List Nat} (inR : Nat → Prop)
    (hune : u ≠ []) (huprint : ∀ x ∈ u, isPrintB x = true)
    (h0 : ∀ j, inR j → out[j]? = some 0)
    (hkeep : ∀ j, ¬ inR j → out[j]? = data[j]?)
    (hstart : ∀ i, occursAtB data u i = true → inR i)
    (i : Nat) :
    occursAtB out u i = false := by
  cases hocc : occursAtB out u i with
  | false => rfl
  | true =>
    exfalso
    rw [occursAtB_iff] at hocc
    have hu0 : 0 < u.length := List.length_pos.mpr hune
    have hnotin : ∀ k, k < u.length → ¬ inR (i + k) := by
      intro k hk hin
      have h1 := hocc k hk
      have h2 := h0 (i + k) hin
      rw [h1] at h2
      injection h2 with h2
      exact isPrintB_ne_zero (huprint _ (List.getElem_mem hk)) h2
    have hdataocc : occursAtB data u i = true := by
      rw [occursAtB_iff]
      intro k hk
      rw [← hkeep (i + k) (hnotin k hk)]
      exact hocc k hk
    have hin0 : inR i := hstart i hdataocc
    have hni := hnotin 0 hu0
    rw [Nat.add_zero] at hni
    exact hni hin0

theorem occList_eq_nil {data sub : List Nat} {start : Nat}
    (h : ∀ i, occursAtB data sub i = false) :
    occList data sub start = [] := by
  unfold occList
  rw [List.filter_eq_nil_iff]
  intro i _
  rw [Bool.and_eq_true]
  rintro ⟨_, hocc⟩
  rw [h i] at hocc
  cases hocc

/-! ### Transfer of matched ranges through sorting and tagging -/

theorem inRanges_sortDesc {l : List Match4} {j : Nat} :
    inRanges (sortDesc l) j ↔ inRanges l j := by
  unfold inRanges
  constructor <;> rintro ⟨m, hm, hr⟩
  · exact ⟨m, mem_sortDesc.mp hm, hr⟩
  · exact ⟨m, mem_sortDesc.mpr hm, hr⟩

theorem gather_single (data p : List Nat) (ci : Bool) :
    gatherMatches data [p] ci =
      (findMatchesFor data p ci).map (fun m => (m.1, m.2.1, m.2.2, p)) := by
  unfold gatherMatches
  simp

theorem inRanges_map_assoc {M : List Match3} {p : List Nat} {j : Nat} :
    inRanges (M.map (fun m => (m.1, m.2.1, m.2.2, p))) j ↔
      ∃ m ∈ M, m.1 ≤ j ∧ j < m.1 + m.2.2.length := by
  unfold inRanges
  constructor
  · rintro ⟨m4, hm4, hr⟩
    rw [List.mem_map] at hm4
    obtain ⟨m3, hm3, rfl⟩ := hm4
    exact ⟨m3, hm3, hr⟩
  · rintro ⟨m3, hm3, hr⟩
    exact ⟨(m3.1, m3.2.1, m3.2.2, p), List.mem_map.mpr ⟨m3, hm3, rfl⟩, hr⟩

theorem mem_find_exact_false {data p : List Nat} {i : Nat}
    (hi : i ∈ occList data (asciiEncode p) 0) :
    (i, p, asciiEncode p) ∈ find_exact_matches data p false := by
  rw [find_exact_false_eq, List.mem_map]
  exact ⟨i, hi, rfl⟩

theorem mem_find_exact_true {data p u : List Nat} {i : Nat}
    (hu : u ∈ List.dedup [asciiEncode p, asciiEncode (lowerStr p), asciiEncode (upperStr p)])
    (hi : i ∈ occList data u 0) :
    (i, asciiEncode u, u) ∈ find_exact_matches data p true := by
  rw [find_exact_true_eq, List.mem_flatten]
  exact ⟨(occList data u 0).map (fun j => (j, asciiEncode u, u)),
    List.mem_map.mpr ⟨u, hu, rfl⟩, List.mem_map.mpr ⟨i, hi, rfl⟩⟩

theorem cands_spec {p : List Nat} (hp : ∀ x ∈ p, isPrintB x = true) :
    ∀ u ∈ List.dedup [asciiEncode p, asciiEncode (lowerStr p), asciiEncode (upperStr p)],
      u.length = p.length ∧ ∀ x ∈ u, isPrintB x = true := by
  intro u hu
  rw [List.mem_dedup] at hu
  have hlow : ∀ x ∈ lowerStr p, isPrintB x = true := by
    intro x hx
    unfold lowerStr at hx
    rw [List.mem_map] at hx
    obtain ⟨y, hy, rfl⟩ := hx
    exact toLowerCh_print (hp y hy)
  have hup : ∀ x ∈ upperStr p, isPrintB x = true := by
    intro x hx
    unfold upperStr at hx
    rw [List.mem_map] at hx
    obtain ⟨y, hy, rfl⟩ := hx
    exact toUpperCh_print (hp y hy)
  rcases List.mem_cons.mp hu with h1 | hu2
  · subst h1
    rw [asciiEncode_of_print hp]
    exact ⟨rfl, hp⟩
  rcases List.mem_cons.mp hu2 with h1 | hu3
  · subst h1
    rw [asciiEncode_of_print hlow]
    refine ⟨?_, hlow⟩
    unfold lowerStr
    exact List.length_map _ _
  rcases List.mem_cons.mp hu3 with h1 | hu4
  · subst h1
    rw [asciiEncode_of_print hup]
    refine ⟨?_, hup⟩
    unfold upperStr
    exact List.length_map _ _
  · cases hu4

/-- Claim C9 (amended): NullFill patching is idempotent with respect to
matching for every NONEMPTY pattern all of whose characters are printable
ASCII (0x20-0x7E): after `patch_file` in NullFill mode has overwritten all
of that pattern's matches with zero bytes, re-scanning the patched buffer
for the same pattern (same wildcard/literal dispatch, same case flag)
yields zero matches, because the nulled bytes are non-printable and the
pattern's bytes are printable.  An empty pattern, or a pattern containing
non-printable characters such as NUL, re-matches the patched buffer — see
the counterexample. -/
theorem c9_nullfill_idempotent (data p ph : List Nat) (ci : Bool)
    (out : List Nat) (n : Nat) (logs : List LogEntry)
    (hpne : p ≠ []) (hpp : ∀ x ∈ p, 32 ≤ x ∧ x ≤ 126)
    (hok : patch_file data [p] "null" ph ci = Except.ok (out, n, logs)) :
    findMatchesFor out p ci = [] := by
  have hpprint : ∀ x ∈ p, isPrintB x = true := by
    intro x hx
    unfold isPrintB
    rw [decide_eq_true_eq]
    exact hpp x hx
  unfold patch_file at hok
  obtain ⟨hlen, h0s, hkeeps⟩ := applyLoop_null_getElem _ data out n logs hok
  have hiff : ∀ j, inRanges (sortDesc (gatherMatches data [p] ci)) j ↔
      (∃ m ∈ findMatchesFor data p ci, m.1 ≤ j ∧ j < m.1 + m.2.2.length) := by
    intro j
    rw [inRanges_sortDesc, gather_single, inRanges_map_assoc]
  have h0 : ∀ j, (∃ m ∈ findMatchesFor data p ci, m.1 ≤ j ∧ j < m.1 + m.2.2.length) →
      out[j]? = some 0 := fun j hj => h0s j ((hiff j).mpr hj)
  have hkeep : ∀ j, (¬ ∃ m ∈ findMatchesFor data p ci, m.1 ≤ j ∧ j < m.1 + m.2.2.length) →
      out[j]? = data[j]? := fun j hj => hkeeps j (fun hc => hj ((hiff j).mp hc))
  unfold findMatchesFor at h0 hkeep ⊢
  by_cases hw : isWildcardPat p
  · rw [if_pos hw] at h0 hkeep ⊢
    have hM : ∀ m ∈ find_wildcard_matches data p ci,
        IsRun data m.1 m.2.1 ∧ m.2.2 = m.2.1 ∧ globMatchB p m.2.1 ci = true := by
      intro m hm
      obtain ⟨i, tt, mb⟩ := m
      obtain ⟨hrunm, hgm, hmb⟩ := mem_find_wildcard.mp hm
      have henc : asciiEncode tt = tt := asciiEncode_of_print (extractRuns_print hrunm)
      exact ⟨mem_extractRuns.mp hrunm, by rw [hmb, henc], hgm⟩
    have hMall : ∀ s t2, IsRun data s t2 → globMatchB p t2 ci = true →
        (s, t2, t2) ∈ find_wildcard_matches data p ci := by
      intro s t2 hr hg
      have henc : asciiEncode t2 = t2 := asciiEncode_of_print (IsRun_print hr)
      exact mem_find_wildcard.mpr ⟨mem_extractRuns.mpr hr, hg, henc.symm⟩
    have hcore := runs_of_nulled data out (fun t2 => globMatchB p t2 ci)
      (find_wildcard_matches data p ci) hM hMall h0 hkeep
    unfold find_wildcard_matches
    rw [List.filterMap_eq_nil_iff]
    intro r hr
    obtain ⟨r1, r2⟩ := r
    have hcr := hcore r1 r2 (mem_extractRuns.mp hr)
    have hfalse : globMatchB p r2 ci = false := hcr.2
    rw [hfalse]
    simp
  · rw [if_neg hw] at h0 hkeep ⊢
    cases ci with
    | false =>
      rw [find_exact_false_eq]
      have hnil : occList out (asciiEncode p) 0 = [] := by
        apply occList_eq_nil
        intro i
        refine occursAt_out_false
          (fun j => ∃ m ∈ find_exact_matches data p false,
            m.1 ≤ j ∧ j < m.1 + m.2.2.length) ?_ ?_ h0 hkeep ?_ i
        · rw [asciiEncode_of_print hpprint]
          exact hpne
        · rw [asciiEncode_of_print hpprint]
          exact hpprint
        · intro i2 hocc
          have hene : asciiEncode p ≠ [] := by
            rw [asciiEncode_of_print hpprint]
            exact hpne
          have hi2 : i2 < data.length := occursAtB_lt_length hene hocc
          refine ⟨(i2, p, asciiEncode p), mem_find_exact_false ?_, le_refl i2, ?_⟩
          · rw [mem_occList]
            exact ⟨by omega, by omega, hocc⟩
          · show i2 < i2 + (asciiEncode p).length
            have := List.length_pos.mpr hene
            omega
      rw [hnil]
      rfl
    | true =>
      rw [find_exact_true_eq, List.flatten_eq_nil_iff]
      intro l hl
      rw [List.mem_map] at hl
      obtain ⟨u, hu, rfl⟩ := hl
      have hspec := cands_spec hpprint u hu
      have hplen := List.length_pos.mpr hpne
      have hune : u ≠ [] := by
        intro h
        have h1 := hspec.1
        rw [h] at h1
        simp at h1
        omega
      have hnil : occList out u 0 = [] := by
        apply occList_eq_nil
        intro i
        refine occursAt_out_false
          (fun j => ∃ m ∈ find_exact_matches data p true,
            m.1 ≤ j ∧ j < m.1 + m.2.2.length) hune hspec.2 h0 hkeep ?_ i
        intro i2 hocc
        have hi2 : i2 < data.length := occursAtB_lt_length hune hocc
        refine ⟨(i2, asciiEncode u, u), mem_find_exact_true hu ?_, le_refl i2, ?_⟩
        · rw [mem_occList]
          exact ⟨by omega, by omega, hocc⟩
        · show i2 < i2 + u.length
          have := List.length_pos.mpr hune
          omega
      rw [hnil]
      rfl

/-- Counterexample to claim C9 as stated (for EVERY pattern): with the
empty pattern, matches are empty byte ranges, the patch writes nothing and
the re-scan finds the same two matches again; with the single-NUL pattern,
nulling a NUL byte leaves it a NUL byte and the re-scan finds it again. -/
theorem c9_counterexample :
    (patch_file [65] [[]] "null" [] false =
        Except.ok ([65], 2, [([], [], 1), ([], [], 0)]) ∧
      findMatchesFor [65] [] false = [(0, [], []), (1, [], [])]) ∧
    (patch_file [0] [[0]] "null" [] false =
        Except.ok ([0], 1, [([0], [0], 0)]) ∧
      findMatchesFor [0] [0] false = [(0, [0], [0])]) :=
  ⟨⟨rfl, rfl⟩, ⟨rfl, rfl⟩⟩

/-- Witness for C9: nulling the literal match `BAD` in a concrete buffer
and re-scanning yields no match. -/
theorem c9_nullfill_idempotent_witness :
    findMatchesFor [0, 0, 0, 0, 0] [66, 65, 68] false = [] :=
  c9_nullfill_idempotent [0, 66, 65, 68, 0] [66, 65, 68] [] false
    [0, 0, 0, 0, 0] 1 [([66, 65, 68], [66, 65, 68], 1)]
    (by decide) (by decide) (by rfl)
